import Mathlib

/-!
Verification of `anki-vocab` (src/lookup_to_anki.py, src/lookup_to_anki_multi_lang.py).

Python strings are modelled as `List Char` (`PyStr`).  `str.strip` /
`str.lower` / `str.split` are embedded below; `Char.toLower` agrees with
Python `str.lower` on ASCII, which is all the claims exercise.  External
effects (HTTP fetches, the `trans` subprocess, `langdetect`) are modelled
as oracle arguments giving the value the external call returned, with
`none` standing for a raised exception where the code catches one.
-/

/-- A Python `str`, modelled as its sequence of characters. -/
abbrev PyStr := List Char

/-- Python `str.isspace` on the ASCII whitespace characters recognised by
`str.strip()`: space, tab, newline, carriage return, vertical tab, form feed.
(Unicode space classes are outside the claims' scope.) -/
def pyIsSpace (c : Char) : Bool :=
  c = ' ' || c = '\t' || c = '\n' || c = '\r' || c = '\x0b' || c = '\x0c'

/-- Python `s.lstrip()`. -/
def pyLStrip (s : PyStr) : PyStr := s.dropWhile pyIsSpace

/-- Python `s.rstrip()`. -/
def pyRStrip (s : PyStr) : PyStr := (s.reverse.dropWhile pyIsSpace).reverse

/-- Python `s.strip()`. -/
def pyStrip (s : PyStr) : PyStr := pyLStrip (pyRStrip s)

/-- Python `s.lower()` (ASCII-faithful). -/
def pyLower (s : PyStr) : PyStr := s.map Char.toLower

/-- Helper for `splitOnChar`: prepend a character to the first chunk. -/
def consHead (x : Char) : List PyStr → List PyStr
  | [] => [[x]]
  | y :: ys => (x :: y) :: ys

/-- Python `s.split(k)` for a single-character separator `k`; always returns a
non-empty list of chunks.  Also used for the file's line structure: iterating a
Python text file yields exactly the chunks between newline characters (each
with its trailing newline, and without a final empty chunk), and every use in
this program strips each line and skips blank ones, under which the two
decompositions are indistinguishable. -/
def splitOnChar (k : Char) : PyStr → List PyStr
  | [] => [[]]
  | x :: xs => if x = k then [] :: splitOnChar k xs else consHead x (splitOnChar k xs)

/-- First chunk of a tab-split: Python `line.split("\t")[0]`. -/
def firstTabField (line : PyStr) : PyStr := (splitOnChar '\t' line).headD []

/- -------------------- persistence layer (multi-lang file) -------------------- -/

/-- The loop body of `word_exists_in_tsv` (src/lookup_to_anki_multi_lang.py
lines 528-533): strip the line, skip it when blank, otherwise compare the
stripped first tab-separated field to the word, case-insensitively. -/
def matchesHeadword (word line : PyStr) : Bool :=
  let l := pyStrip line
  !l.isEmpty && (pyLower (pyStrip (firstTabField l)) == pyLower word)

/-- `word_exists_in_tsv` (src/lookup_to_anki_multi_lang.py lines 521-536),
as a function of the file's contents.  A missing file returns `False` there,
which coincides with scanning empty contents, so contents `[]` covers both. -/
def word_exists_in_tsv (content word : PyStr) : Bool :=
  (splitOnChar '\n' content).any (matchesHeadword word)

/-- The record line `f"{word}\t{en_text}\t{zh_text}\n"` written by
`append_tsv` (src/lookup_to_anki_multi_lang.py line 546). -/
def tsvLine (word en zh : PyStr) : PyStr :=
  word ++ '\t' :: en ++ '\t' :: zh ++ ['\n']

/-- `append_tsv` (src/lookup_to_anki_multi_lang.py lines 538-549) as a pure
function of the file contents: returns (new contents, returned line,
was-duplicate flag).  The duplicate branch performs no write and still
returns the formatted line together with `True`. -/
def append_tsv (content word en zh : PyStr) : PyStr × PyStr × Bool :=
  if word_exists_in_tsv content word then (content, tsvLine word en zh, true)
  else (content ++ tsvLine word en zh, tsvLine word en zh, false)

/-- Number of stored lines that the duplicate check of `word_exists_in_tsv`
recognises as holding `word`. -/
def countHeadword (content word : PyStr) : Nat :=
  (splitOnChar '\n' content).countP (matchesHeadword word)

/-- Claim-side definition, following the words of claim C1: the number of
lines whose first tab-separated field (taken verbatim, no stripping) equals
the headword case-insensitively. -/
def specCountHeadword (content word : PyStr) : Nat :=
  (splitOnChar '\n' content).countP (fun line => pyLower (firstTabField line) == pyLower word)

/-- `tsv_path_for_lang` (src/lookup_to_anki_multi_lang.py lines 567-576),
returning the file name; the function prefixes the constant repository
directory `REPO_DIR`, under which two equal names give two equal paths.
`lang_code or "en"` maps `None` and the empty string to `"en"`. -/
def tsv_path_for_lang (lang_code : Option PyStr) : PyStr :=
  let base := match lang_code with
    | none => ('e' :: 'n' :: [])
    | some s => if s = [] then ('e' :: 'n' :: []) else s
  let code := pyLower base
  let code := if code.length > 2 then (splitOnChar '-' code).headD [] else code
  ("vocab_".data) ++ code ++ (".tsv".data)

/-- Claim-side helper for C7: the `<code>` part of a produced file name
`vocab_<code>.tsv`. -/
def pathCode (p : PyStr) : PyStr := ((p.drop 6).reverse.drop 4).reverse

/- -------------------- language detection -------------------- -/

/-- The translate-shell fallback tier of `detect_lang_auto`
(src/lookup_to_anki_multi_lang.py lines 153-168).  `d2` is the captured
stdout of `trans -id -b`, `none` when the invocation raised (the exception is
swallowed and the default is returned).  The dictionary lookup
`mapping.get` is linearised into a chain of equality tests over its five
(distinct) keys. -/
def detect_lang_shell (d2 : Option PyStr) : PyStr :=
  match d2 with
  | none => ("en".data)
  | some out =>
    let code := pyLower (pyStrip out)
    if code = ("english".data) then ("en".data)
    else if code = ("swedish".data) then ("sv".data)
    else if code = ("svenska".data) then ("sv".data)
    else if code = ("chinese".data) then ("zh".data)
    else if code = ("chinese (simplified)".data) then ("zh".data)
    else if code ≠ [] then ((splitOnChar '-' code).headD []).take 2
    else ("en".data)

/-- `detect_lang_auto` (src/lookup_to_anki_multi_lang.py lines 144-168).
`d1` is what `langdetect.detect(text)` returned; `none` when the import or
the call raised (swallowed).  An empty detector result falls through to the
translate-shell tier, like the code's `if code:` guard. -/
def detect_lang_auto (d1 d2 : Option PyStr) : PyStr :=
  match d1 with
  | some code => if code ≠ [] then (splitOnChar '-' code).headD [] else detect_lang_shell d2
  | none => detect_lang_shell d2

/- -------------------- JSON model and dictionary lookup -------------------- -/

/-- JSON values as parsed by `json.loads` (numeric leaves are integers here;
no claim exercises floats). -/
inductive Json where
  | null : Json
  | bool (b : Bool) : Json
  | num (n : Int) : Json
  | str (s : PyStr) : Json
  | arr (xs : List Json) : Json
  | obj (kvs : List (PyStr × Json)) : Json

/-- Python `dict.get(k)` on an object's key-value list: `none` when absent. -/
def jget (kvs : List (PyStr × Json)) (k : PyStr) : Option Json :=
  (kvs.find? (fun kv => kv.1 == k)).map (fun kv => kv.2)

/-- Python truthiness of a JSON value. -/
def pyTruthy : Json → Bool
  | .null => false
  | .bool b => b
  | .num n => n != 0
  | .str s => !s.isEmpty
  | .arr xs => !xs.isEmpty
  | .obj kvs => !kvs.isEmpty

/-- Python `str(v)` for the JSON scalars the dictionary responses carry;
containers are not stringified by any claim and get a fixed rendering. -/
def pyStrOf : Json → PyStr
  | .str s => s
  | .null => ("None".data)
  | .bool true => ("True".data)
  | .bool false => ("False".data)
  | .num n => (toString n).data
  | .arr _ => ("[]".data)
  | .obj _ => ("{}".data)

/-- `for x in v` in the loops of `english_defs_from_dictionaryapi`:
`some` of the element list when the loop runs its body zero or more times on
dict elements, `none` when the iteration's body raises on its first element
(iterating a non-empty string or dict yields strings, whose `.get` raises
`AttributeError`) or `v` is not iterable (`TypeError`). -/
def iterElems : Json → Option (List Json)
  | .arr xs => some xs
  | .str [] => some []
  | .obj [] => some []
  | _ => none

/-- The phonetics loop (src/lookup_to_anki_multi_lang.py lines 254-258 and
src/lookup_to_anki.py lines 68-72): first truthy `p.get("audio")`.  The
`Except` error is an exception escaping the loop body. -/
def firstAudio : List Json → Except Unit (Option Json)
  | [] => .ok none
  | p :: ps =>
    match p with
    | .obj pk =>
      let au := (jget pk ("audio".data)).getD .null
      if pyTruthy au then .ok (some au) else firstAudio ps
    | _ => .error ()

/-- The inner definitions loop (src/lookup_to_anki_multi_lang.py lines
261-268): builds `"[part] definition"`, strips it, appends the example when
truthy, and keeps the result when non-empty. -/
def defsOfList (part : Json) : List Json → Except Unit (List PyStr)
  | [] => .ok []
  | d :: ds =>
    match d with
    | .obj dk => do
      let defi := (jget dk ("definition".data)).getD (.str [])
      let ex := (jget dk ("example".data)).getD .null
      let short := pyStrip (('[' :: pyStrOf part) ++ ("] ".data) ++ pyStrOf defi)
      let short := if pyTruthy ex then short ++ (" (e.g. ".data) ++ pyStrOf ex ++ [')'] else short
      let rest ← defsOfList part ds
      .ok ((if short.isEmpty then [] else [short]) ++ rest)
    | _ => .error ()

/-- The meanings loop (src/lookup_to_anki_multi_lang.py lines 259-268):
`part = m.get("partOfSpeech") or ""`, then the definitions loop. -/
def collectDefs : List Json → Except Unit (List PyStr)
  | [] => .ok []
  | m :: ms =>
    match m with
    | .obj mk => do
      let p := (jget mk ("partOfSpeech".data)).getD .null
      let part := if pyTruthy p then p else Json.str []
      match iterElems ((jget mk ("definitions".data)).getD (.arr [])) with
      | some ds => do
        let here ← defsOfList part ds
        let rest ← collectDefs ms
        .ok (here ++ rest)
      | none => .error ()
    | _ => .error ()

/-- Extraction from the first response entry, shared by both versions of
`english_defs_from_dictionaryapi`: phonetics audio then meanings. -/
def extractEntry : Json → Except Unit (Option Json × List PyStr)
  | .obj kvs =>
    (match iterElems ((jget kvs ("phonetics".data)).getD (.arr [])) with
     | some ps => do
       let audio ← firstAudio ps
       match iterElems ((jget kvs ("meanings".data)).getD (.arr [])) with
       | some ms => do
         let defs ← collectDefs ms
         .ok (audio, defs)
       | none => .error ()
     | none => .error ())
  | _ => .error ()

/-- Outcome of `urllib.request.urlopen` plus reading the body. -/
inductive HttpResult where
  | httpError (code : Nat) : HttpResult
  | otherError : HttpResult
  | body (content : PyStr) : HttpResult

/-- `fetch_json` (src/lookup_to_anki_multi_lang.py lines 68-82): every
exception (including `urllib.error.HTTPError`) is caught and becomes `None`;
a blank body or one starting with `<` is `None`; otherwise the `json.loads`
result (`parsed`'s error is the decode exception, also caught). -/
def fetch_json : HttpResult → Except PyStr Json → Option Json
  | .httpError _, _ => none
  | .otherError, _ => none
  | .body content, parsed =>
    if (pyStrip content).isEmpty then none
    else if (pyStrip content).head? = some '<' then none
    else match parsed with
      | .ok j => some j
      | .error _ => none

/-- Exceptions that `fetch_json` in src/lookup_to_anki.py (lines 52-55,
which has no handler) lets escape. -/
inductive PyErr where
  | httpError (code : Nat) : PyErr
  | otherError (msg : PyStr) : PyErr

/-- `fetch_json` of src/lookup_to_anki.py lines 52-55: no blank/HTML check,
no handler; a decode error propagates with its message. -/
def fetch_json_v1 : HttpResult → Except PyStr Json → Except PyErr Json
  | .httpError c, _ => .error (.httpError c)
  | .otherError, _ => .error (.otherError [])
  | .body _, .ok j => .ok j
  | .body _, .error msg => .error (.otherError msg)

/-- The shared post-fetch body of both `english_defs_from_dictionaryapi`
versions: first entry of a non-empty list response, else no audio and no
definitions.  `exDetail` is `str(e)` for an exception raised during
extraction. -/
def defsFromData (data : Option Json) (exDetail : PyStr) : Option Json × List PyStr :=
  match data with
  | some (.arr (entry :: _)) =>
    (match extractEntry entry with
     | .ok res => res
     | .error () => (none, [("(dictapi error: ".data) ++ exDetail ++ [')']]))
  | _ => (none, [])

/-- `english_defs_from_dictionaryapi` (src/lookup_to_anki_multi_lang.py
lines 247-273).  `fetch_json` never raises there, so the `except
urllib.error.HTTPError` arm can only be reached by an exception raised
during extraction, and a fetch failure yields `(None, [])`. -/
def english_defs_from_dictionaryapi (r : HttpResult) (parsed : Except PyStr Json)
    (exDetail : PyStr) : Option Json × List PyStr :=
  defsFromData (fetch_json r parsed) exDetail

/-- `english_defs_from_dictionaryapi` of src/lookup_to_anki.py lines 58-88:
there `fetch_json` raises, `HTTPError e` becomes `(None, ["(dictapi HTTP
{e.code})"])` and any other exception `(None, ["(dictapi error: {e})"])`. -/
def english_defs_from_dictionaryapi_v1 (r : HttpResult) (parsed : Except PyStr Json)
    (exDetail : PyStr) : Option Json × List PyStr :=
  match fetch_json_v1 r parsed with
  | .error (.httpError c) => (none, [("(dictapi HTTP ".data) ++ (toString c).data ++ [')']])
  | .error (.otherError msg) => (none, [("(dictapi error: ".data) ++ msg ++ [')']])
  | .ok j => defsFromData (some j) exDetail

/-- `" ; ".join(en_defs) if en_defs else ""` (src/lookup_to_anki_multi_lang.py
line 600). -/
def joinGlosses : List PyStr → PyStr
  | [] => []
  | [d] => d
  | d :: ds => d ++ (" ; ".data) ++ joinGlosses ds

/- -------------------- git sync layer -------------------- -/

/-- A git subcommand attempted by the sync layer (all run with
`check=False`, so one failing does not stop the next). -/
inductive GitCmd where
  | add (file : PyStr) : GitCmd
  | commit (msg : PyStr) : GitCmd
  | push : GitCmd
deriving DecidableEq

/-- `git_commit_push` of src/lookup_to_anki.py lines 155-162 as the trace of
git subcommands it attempts: stage the vocabulary file, commit, and push
exactly when `AUTO_PUSH` is set and `git_remote_exists()` holds. -/
def git_commit_push_v1 (tsvName message : PyStr) (auto_push remote : Bool) : List GitCmd :=
  [.add tsvName, .commit message] ++ (if auto_push && remote then [GitCmd.push] else [])

/-- `git_commit_push` of src/lookup_to_anki_multi_lang.py lines 558-565.
Its first statement interpolates `tsv_path.name`, but `tsv_path` is bound
nowhere in that scope (it is a local variable of `main`), so evaluating the
f-string raises `NameError` before any git command runs, and the blanket
`except Exception: pass` swallows it: the attempted-command trace is always
empty, whatever the message, push flag, or remote state. -/
def git_commit_push (_message : PyStr) (_enable_push _remote : Bool) : List GitCmd :=
  []

/- -------------------- CLI entry points -------------------- -/

/-- Exit status and printed usage line of `main` in src/lookup_to_anki.py
lines 165-170, as a function of `sys.argv` (whose head is the program name):
fewer than two elements prints the usage string and exits 1; otherwise the
remaining pipeline runs components that catch their own errors and `main`
returns normally, exit status 0.  (Unhandled OS-level faults, e.g. a failing
filesystem write inside `append_tsv`, are outside this model.) -/
def main_exit_v1 (argv : List PyStr) : Nat × Option PyStr :=
  if argv.length < 2 then (1, some ("Usage: lookup_to_anki.py <word or phrase>".data))
  else (0, none)

/-- Exit status of `main` in src/lookup_to_anki_multi_lang.py lines 579-586
as a function of the (possibly empty) list of `term` positionals.  The
parser declares `term` with `nargs="+"`, and `argparse.ArgumentParser`
exits with status 2 and a usage message when a required positional is
missing (documented library behaviour); with at least one term the pipeline
runs to completion as above, exit status 0. -/
def main_exit_ml (termArgs : List PyStr) : Nat :=
  if termArgs.isEmpty then 2 else 0

/- -------------------- substring operations -------------------- -/

/-- Python `sub in s` for a non-empty separator. -/
def hasSub (sep : PyStr) : PyStr → Bool
  | [] => sep.isEmpty
  | x :: xs => sep.isPrefixOf (x :: xs) || hasSub sep xs

/-- Split at the first occurrence of `sep`: `some (before, after)` when `sep`
occurs, so that Python `s.split(sep, 1)` is `[before, after]`,
`s.split(sep)[0]` is `before`, and `sep in s` is `isSome`. -/
def splitAtSub (sep : PyStr) : PyStr → Option (PyStr × PyStr)
  | [] => if sep.isEmpty then some ([], []) else none
  | x :: xs =>
    if sep.isPrefixOf (x :: xs) then some ([], (x :: xs).drop sep.length)
    else (splitAtSub sep xs).map (fun pr => (x :: pr.1, pr.2))

/- -------------------- English-to-Swedish (en2sv) mode -------------------- -/

/-- One parsed entry of `fetch_folkets_lexikon` (src/lookup_to_anki_multi_lang.py
lines 84-141): the dicts it builds always carry a translation (regex-captured
then stripped), a word class (regex `\w+` or the default `"word"`), and an
example list. -/
structure FolketsEntry where
  translation : PyStr
  cls : PyStr
  examples : List PyStr

/-- The Folkets tier of `english_to_swedish_with_examples`
(src/lookup_to_anki_multi_lang.py lines 377-397): up to two entries, each
with a truthy translation, formatted `"[class] translation"` with
`" (e.g. example)"` appended when an example exists. -/
def folketsTranslations (data : Option (List FolketsEntry)) : List PyStr :=
  match data with
  | none => []
  | some entries =>
    (entries.take 2).filterMap (fun e =>
      if e.translation.isEmpty then none
      else if e.examples.isEmpty then
        some (('[' :: e.cls) ++ ("] ".data) ++ e.translation)
      else
        some (('[' :: e.cls) ++ ("] ".data) ++ e.translation ++ (" (e.g. ".data)
              ++ e.examples.headD [] ++ [')']))

/-- An apostrophe character, used by the hardcoded example sentences. -/
def apos : Char := Char.ofNat 39

/-- `example_patterns.get(word.lower())` of `english_to_swedish_with_examples`
(src/lookup_to_anki_multi_lang.py lines 406-417), with `t` the value of
`trans_brief("en", "sv", word)`.  Every template begins with the
translation followed by `" - "`. -/
def en2sv_pattern (w t : PyStr) : Option PyStr :=
  if w = ("hello".data) then
    some (t ++ (" - ".data) ++ t ++ (", hur mår du? (Hello, how are you?)".data))
  else if w = ("thank".data) then
    some (t ++ (" - ".data) ++ t ++ (" så mycket (Thank you so much)".data))
  else if w = ("please".data) then
    some (t ++ (" - ".data) ++ ("Kan du hjälpa mig, ".data) ++ t ++ ("? (Can you help me, please?)".data))
  else if w = ("yes".data) then
    some (t ++ (" - ".data) ++ t ++ (", det stämmer (Yes, that".data) ++ apos :: ("s right)".data))
  else if w = ("no".data) then
    some (t ++ (" - ".data) ++ t ++ (", det gör jag inte (No, I don".data) ++ apos :: ("t)".data))
  else if w = ("time".data) then
    some (t ++ (" - ".data) ++ ("Vad är klockan? Vilken ".data) ++ t ++ (" är det? (What time is it?)".data))
  else if w = ("day".data) then
    some (t ++ (" - ".data) ++ ("Idag är en bra ".data) ++ t ++ (" (Today is a good day)".data))
  else if w = ("night".data) then
    some (t ++ (" - ".data) ++ ("God ".data) ++ t ++ ("! (Good night!)".data))
  else if w = ("morning".data) then
    some (t ++ (" - ".data) ++ ("God ".data) ++ t ++ ("! (Good morning!)".data))
  else if w = ("work".data) then
    some (t ++ (" - ".data) ++ ("Jag går till ".data) ++ t ++ (" (I".data) ++ apos :: ("m going to work)".data))
  else none

/-- `english_to_swedish_with_examples` (src/lookup_to_anki_multi_lang.py
lines 373-430).  `data` is the parsed Folkets response (`none` for a failed
fetch) and `t` the translate-shell result for `("en", "sv", word)`; the two
`trans_brief` invocations with identical arguments are modelled as the same
value `t`, so the final `[basic_trans]` fallback collapses into the `t ≠ []`
branch and only `["(no translation found)"]` remains after it. -/
def english_to_swedish_with_examples (data : Option (List FolketsEntry))
    (word t : PyStr) : List PyStr :=
  let translations := folketsTranslations data
  if !translations.isEmpty then translations
  else if !t.isEmpty then
    match en2sv_pattern (pyLower word) t with
    | some ex => [("[word] ".data) ++ ex]
    | none => [("[word] ".data) ++ t ++ (" (e.g. Jag lär mig svenska ord som ".data)
               ++ apos :: t ++ apos :: [')']]
  else [("(no translation found)".data)]

/-- The Swedish-word extraction of the `en2sv` branch of `main`
(src/lookup_to_anki_multi_lang.py lines 637-649): take the part of the first
translation after `"] "`, cut at `" - "`, else at `" ("`, else whole, and
strip; empty when there is no translation or no `"] "`. -/
def extract_sv_word (sv_translations : List PyStr) : PyStr :=
  match sv_translations with
  | [] => []
  | first_trans :: _ =>
    match splitAtSub ("] ".data) first_trans with
    | none => []
    | some pr =>
      match splitAtSub (" - ".data) pr.2 with
      | some pr2 => pyStrip pr2.1
      | none =>
        match splitAtSub (" (".data) pr.2 with
        | some pr3 => pyStrip pr3.1
        | none => pyStrip pr.2

/-- The headword the `en2sv` branch persists (src/lookup_to_anki_multi_lang.py
lines 635-659): the extracted Swedish word, else the bridge translation
`t = trans_brief("en", "sv", term)`, else the original term. -/
def en2sv_headword (data : Option (List FolketsEntry)) (term t : PyStr) : PyStr :=
  let sv_word := extract_sv_word (english_to_swedish_with_examples data term t)
  if !sv_word.isEmpty then sv_word
  else if !t.isEmpty then t
  else term

/- -------------------- lemmas: splitOnChar -------------------- -/

/-- Concatenation of chunk lists: the last chunk of the first list joins the
first chunk of the second, mirroring `splitOnChar` over `++`. -/
def glue : List PyStr → List PyStr → List PyStr
  | [], ys => ys
  | [x], [] => [x]
  | [x], y :: ys => (x ++ y) :: ys
  | x :: x2 :: xs, ys => x :: glue (x2 :: xs) ys

theorem splitOnChar_cons_eq (k x : Char) (xs : PyStr) :
    splitOnChar k (x :: xs)
      = if x = k then [] :: splitOnChar k xs else consHead x (splitOnChar k xs) := rfl

theorem splitOnChar_ne_nil (k : Char) (s : PyStr) : splitOnChar k s ≠ [] := by
  cases s with
  | nil => simp [splitOnChar]
  | cons x xs =>
    simp only [splitOnChar]
    split
    · simp
    · cases h : splitOnChar k xs <;> simp [consHead]

theorem consHead_glue (x : Char) (S Y : List PyStr) (hS : S ≠ []) (hY : Y ≠ []) :
    consHead x (glue S Y) = glue (consHead x S) Y := by
  match S, Y with
  | [s0], y :: ys => simp [glue, consHead]
  | s0 :: s1 :: ss, y :: ys => simp [glue, consHead]

theorem splitOnChar_append (k : Char) (a b : PyStr) :
    splitOnChar k (a ++ b) = glue (splitOnChar k a) (splitOnChar k b) := by
  induction a with
  | nil =>
    obtain ⟨y, ys, h⟩ : ∃ y ys, splitOnChar k b = y :: ys := by
      cases h : splitOnChar k b with
      | nil => exact absurd h (splitOnChar_ne_nil k b)
      | cons y ys => exact ⟨y, ys, rfl⟩
    simp [splitOnChar, glue, h]
  | cons x a' ih =>
    by_cases hx : x = k
    · subst hx
      have h1 : splitOnChar x ((x :: a') ++ b) = [] :: splitOnChar x (a' ++ b) := by
        rw [List.cons_append, splitOnChar_cons_eq, if_pos rfl]
      have h2 : splitOnChar x (x :: a') = [] :: splitOnChar x a' := by
        rw [splitOnChar_cons_eq, if_pos rfl]
      rw [h1, h2, ih]
      obtain ⟨z, zs, hz⟩ : ∃ z zs, splitOnChar x a' = z :: zs := by
        cases h : splitOnChar x a' with
        | nil => exact absurd h (splitOnChar_ne_nil x a')
        | cons z zs => exact ⟨z, zs, rfl⟩
      rw [hz]
      rfl
    · have h1 : splitOnChar k ((x :: a') ++ b) = consHead x (splitOnChar k (a' ++ b)) := by
        rw [List.cons_append, splitOnChar_cons_eq, if_neg hx]
      have h2 : splitOnChar k (x :: a') = consHead x (splitOnChar k a') := by
        rw [splitOnChar_cons_eq, if_neg hx]
      rw [h1, h2, ih]
      exact consHead_glue x _ _ (splitOnChar_ne_nil k a') (splitOnChar_ne_nil k b)

theorem splitOnChar_snoc_sep (k : Char) (s : PyStr) :
    ∃ X, X ≠ [] ∧ splitOnChar k (s ++ [k]) = X ++ [[]] := by
  induction s with
  | nil => exact ⟨[[]], by simp, by simp [splitOnChar]⟩
  | cons x s' ih =>
    obtain ⟨X, hX, hsplit⟩ := ih
    by_cases hx : x = k
    · subst hx
      exact ⟨[] :: X, by simp, by simp [splitOnChar, hsplit]⟩
    · match X, hsplit with
      | x0 :: X', hsplit =>
        refine ⟨(x :: x0) :: X', by simp, ?_⟩
        simp [splitOnChar, if_neg hx, hsplit, consHead]

theorem glue_append_nil (X Y : List PyStr) (hX : X ≠ []) (hY : Y ≠ []) :
    glue (X ++ [[]]) Y = X ++ Y := by
  induction X with
  | nil => simp at hX
  | cons x X' ih =>
    match X', Y with
    | [], y :: ys => simp [glue]
    | x1 :: X'', Y =>
      have : glue ((x :: x1 :: X'') ++ [[]]) Y = x :: glue ((x1 :: X'') ++ [[]]) Y := by
        simp [glue]
      rw [this, ih (by simp) ]
      rfl

/-- Splitting a newline-terminated (or empty) prefix followed by more text:
the prefix contributes exactly its own chunks minus the trailing empty one. -/
theorem splitOnChar_nlTerminated (k : Char) (c0 d : PyStr)
    (h : c0 = [] ∨ ∃ s0, c0 = s0 ++ [k]) :
    splitOnChar k (c0 ++ d) = (splitOnChar k c0).dropLast ++ splitOnChar k d := by
  rcases h with h | ⟨s0, h⟩
  · subst h; simp [splitOnChar]
  · subst h
    obtain ⟨X, hX, hsplit⟩ := splitOnChar_snoc_sep k s0
    rw [splitOnChar_append, hsplit, glue_append_nil X _ hX (splitOnChar_ne_nil k d),
        List.dropLast_concat]

/-- Splitting text whose head chunk is separator-free. -/
theorem splitOnChar_sep_cons (k : Char) (X Y : PyStr) (hX : k ∉ X) :
    splitOnChar k (X ++ k :: Y) = X :: splitOnChar k Y := by
  induction X with
  | nil => simp [splitOnChar]
  | cons x X' ih =>
    have hx : x ≠ k := fun h => hX (h ▸ List.mem_cons_self x X')
    have hX' : k ∉ X' := fun h => hX (List.mem_cons_of_mem x h)
    have h1 : splitOnChar k ((x :: X') ++ k :: Y)
        = consHead x (splitOnChar k (X' ++ k :: Y)) := by
      rw [List.cons_append, splitOnChar_cons_eq, if_neg hx]
    rw [h1, ih hX']
    rfl

theorem splitOnChar_eq_single (k : Char) (X : PyStr) (hX : k ∉ X) :
    splitOnChar k X = [X] := by
  induction X with
  | nil => rfl
  | cons x X' ih =>
    have hx : x ≠ k := fun h => hX (h ▸ List.mem_cons_self x X')
    have hX' : k ∉ X' := fun h => hX (List.mem_cons_of_mem x h)
    simp [splitOnChar, if_neg hx, ih hX', consHead]

/-- The head chunk is a prefix of the split string. -/
theorem splitOnChar_headD_append (k : Char) (s : PyStr) :
    ∃ t, s = (splitOnChar k s).headD [] ++ t := by
  induction s with
  | nil => exact ⟨[], rfl⟩
  | cons x xs ih =>
    by_cases hx : x = k
    · exact ⟨x :: xs, by simp [splitOnChar, hx]⟩
    · obtain ⟨t, ht⟩ := ih
      obtain ⟨y, ys, hy⟩ : ∃ y ys, splitOnChar k xs = y :: ys := by
        cases h : splitOnChar k xs with
        | nil => exact absurd h (splitOnChar_ne_nil k xs)
        | cons y ys => exact ⟨y, ys, rfl⟩
      refine ⟨t, ?_⟩
      simp only [splitOnChar, if_neg hx, hy, consHead, List.headD_cons]
      rw [hy] at ht
      simp at ht
      simp [ht]

/-- The head chunk after a non-separator head character starts with it. -/
theorem splitOnChar_headD_cons (k x : Char) (xs : PyStr) (hx : x ≠ k) :
    ∃ t, (splitOnChar k (x :: xs)).headD [] = x :: t := by
  obtain ⟨y, ys, hy⟩ : ∃ y ys, splitOnChar k xs = y :: ys := by
    cases h : splitOnChar k xs with
    | nil => exact absurd h (splitOnChar_ne_nil k xs)
    | cons y ys => exact ⟨y, ys, rfl⟩
  exact ⟨y, by simp [splitOnChar, if_neg hx, hy, consHead]⟩

/- -------------------- lemmas: strip -------------------- -/

theorem pyRStrip_eq_nil_of_space (b : PyStr) (hb : ∀ c ∈ b, pyIsSpace c) :
    pyRStrip b = [] := by
  unfold pyRStrip
  have h : b.reverse.dropWhile pyIsSpace = [] := by
    rw [List.dropWhile_eq_nil_iff]
    intro c hc
    exact hb c (List.mem_reverse.mp hc)
  rw [h]
  rfl

theorem pyRStrip_append (H X : PyStr) (c : Char) (hlast : H.getLast? = some c)
    (hc : pyIsSpace c = false) : pyRStrip (H ++ X) = H ++ pyRStrip X := by
  unfold pyRStrip
  rw [List.reverse_append, List.dropWhile_append]
  by_cases h : (X.reverse.dropWhile pyIsSpace).isEmpty
  · rw [if_pos h]
    have hrev : H.reverse.head? = some c := by rw [List.head?_reverse]; exact hlast
    obtain ⟨t, ht⟩ : ∃ t, H.reverse = c :: t := by
      cases hR : H.reverse with
      | nil => rw [hR] at hrev; simp at hrev
      | cons y t =>
        rw [hR] at hrev
        simp only [List.head?_cons, Option.some_inj] at hrev
        exact ⟨t, by rw [hrev]⟩
    have hX : X.reverse.dropWhile pyIsSpace = [] := by
      simpa [List.isEmpty_iff] using h
    rw [ht, List.dropWhile_cons_of_neg (by simp [hc]), ← ht, List.reverse_reverse, hX]
    simp
  · rw [if_neg h, List.reverse_append, List.reverse_reverse]

theorem pyLStrip_cons_not (c : Char) (s : PyStr) (hc : pyIsSpace c = false) :
    pyLStrip (c :: s) = c :: s :=
  List.dropWhile_cons_of_neg (by simp [hc])

theorem pyLStrip_append_space (a s : PyStr) (ha : ∀ c ∈ a, pyIsSpace c) :
    pyLStrip (a ++ s) = pyLStrip s := by
  unfold pyLStrip
  exact List.dropWhile_append_of_pos ha

theorem pyRStrip_decomp (s : PyStr) :
    ∃ b, s = pyRStrip s ++ b ∧ ∀ c ∈ b, pyIsSpace c := by
  refine ⟨(s.reverse.takeWhile pyIsSpace).reverse, ?_, ?_⟩
  · have h2 := congrArg List.reverse (List.takeWhile_append_dropWhile pyIsSpace s.reverse)
    rw [List.reverse_append, List.reverse_reverse] at h2
    exact h2.symm
  · intro c hc
    exact List.mem_takeWhile_imp (List.mem_reverse.mp hc)

theorem pyLStrip_decomp (s : PyStr) :
    ∃ a, s = a ++ pyLStrip s ∧ ∀ c ∈ a, pyIsSpace c :=
  ⟨s.takeWhile pyIsSpace, (List.takeWhile_append_dropWhile pyIsSpace s).symm,
    fun _ hc => List.mem_takeWhile_imp hc⟩

theorem pyStrip_decomp (s : PyStr) :
    ∃ a b, s = a ++ pyStrip s ++ b ∧ (∀ c ∈ a, pyIsSpace c) ∧ (∀ c ∈ b, pyIsSpace c) := by
  obtain ⟨b, hsb, hb⟩ := pyRStrip_decomp s
  obtain ⟨a, hsa, ha⟩ := pyLStrip_decomp (pyRStrip s)
  refine ⟨a, b, ?_, ha, hb⟩
  have hps : pyStrip s = pyLStrip (pyRStrip s) := rfl
  rw [hps, ← hsa]
  exact hsb

theorem pyStrip_head_not (s : PyStr) (c : Char) (cs : PyStr) (h : pyStrip s = c :: cs) :
    pyIsSpace c = false := by
  have hmatch := List.head?_dropWhile_not pyIsSpace (pyRStrip s)
  have h' : (List.dropWhile pyIsSpace (pyRStrip s)).head? = some c := by
    rw [show List.dropWhile pyIsSpace (pyRStrip s) = pyStrip s from rfl, h]
    rfl
  rw [h'] at hmatch
  exact hmatch

theorem pyRStrip_getLast_not (s : PyStr) (c : Char)
    (h : (pyRStrip s).getLast? = some c) : pyIsSpace c = false := by
  have hmatch := List.head?_dropWhile_not pyIsSpace s.reverse
  have h' : (s.reverse.dropWhile pyIsSpace).head? = some c := by
    rw [← List.getLast?_reverse]
    exact h
  rw [h'] at hmatch
  exact hmatch

theorem pyStrip_getLast_not (s : PyStr) (c : Char)
    (h : (pyStrip s).getLast? = some c) : pyIsSpace c = false := by
  apply pyRStrip_getLast_not s c
  have hdec : pyRStrip s = (pyRStrip s).takeWhile pyIsSpace ++ pyStrip s :=
    (List.takeWhile_append_dropWhile pyIsSpace (pyRStrip s)).symm
  rw [hdec, List.getLast?_append, h]
  rfl

theorem pyStrip_idem (s : PyStr) : pyStrip (pyStrip s) = pyStrip s := by
  cases h : pyStrip s with
  | nil => rfl
  | cons c cs =>
    have hR : pyRStrip (c :: cs) = c :: cs := by
      cases hlast : (c :: cs).getLast? with
      | none => simp at hlast
      | some d =>
        have hd : pyIsSpace d = false := pyStrip_getLast_not s d (h ▸ hlast)
        have happ : pyRStrip ((c :: cs) ++ []) = (c :: cs) ++ pyRStrip [] :=
          pyRStrip_append _ _ d hlast hd
        have hnil : pyRStrip ([] : PyStr) = [] := rfl
        rw [hnil, List.append_nil] at happ
        exact happ
    have hc : pyIsSpace c = false := pyStrip_head_not s c cs h
    show pyLStrip (pyRStrip (c :: cs)) = c :: cs
    rw [hR]
    exact pyLStrip_cons_not c cs hc

theorem pyStrip_ne_nil (s : PyStr) (c : Char) (hc : c ∈ s) (hcs : pyIsSpace c = false) :
    pyStrip s ≠ [] := by
  intro hnil
  obtain ⟨a, b, hs, ha, hb⟩ := pyStrip_decomp s
  rw [hnil] at hs
  rw [hs] at hc
  simp only [List.append_nil, List.mem_append] at hc
  rcases hc with hc | hc
  · exact absurd (ha c hc) (by simp [hcs])
  · exact absurd (hb c hc) (by simp [hcs])

/- -------------------- lemmas: lower -------------------- -/

theorem char_toLower_eq (c : Char) :
    Char.toLower c = if c.toNat ≥ 65 ∧ c.toNat ≤ 90 then Char.ofNat (c.toNat + 32) else c := rfl

theorem char_toNat_ofNat_valid (n : Nat) (h : n < 55296) : (Char.ofNat n).toNat = n := by
  have hv : n.isValidChar := Or.inl h
  rw [Char.ofNat, dif_pos hv]
  rfl

theorem char_toLower_idem (c : Char) : (Char.toLower c).toLower = Char.toLower c := by
  rw [char_toLower_eq c]
  by_cases h : c.toNat ≥ 65 ∧ c.toNat ≤ 90
  · rw [if_pos h, char_toLower_eq]
    have ht : (Char.ofNat (c.toNat + 32)).toNat = c.toNat + 32 :=
      char_toNat_ofNat_valid _ (by omega)
    rw [if_neg (by rw [ht]; omega)]
  · rw [if_neg h, char_toLower_eq c, if_neg h]

theorem pyLower_idem (s : PyStr) : pyLower (pyLower s) = pyLower s := by
  induction s with
  | nil => rfl
  | cons c cs ih =>
    show Char.toLower (Char.toLower c) :: pyLower (pyLower cs) = Char.toLower c :: pyLower cs
    rw [char_toLower_idem, ih]

theorem pyLower_append (a b : PyStr) : pyLower (a ++ b) = pyLower a ++ pyLower b :=
  List.map_append Char.toLower a b

theorem pyLower_length (s : PyStr) : (pyLower s).length = s.length :=
  List.length_map s Char.toLower

theorem pyLower_take (s : PyStr) (n : Nat) : pyLower (s.take n) = (pyLower s).take n :=
  List.map_take Char.toLower s n

theorem pyLower_fix_of_append (p t : PyStr) (h : pyLower (p ++ t) = p ++ t) :
    pyLower p = p := by
  rw [pyLower_append] at h
  exact (List.append_inj h (by rw [pyLower_length])).1

/- -------------------- lemmas: record lines and the duplicate check -------------------- -/

theorem strip_field_of_record (H a b r : PyStr)
    (hHne : H ≠ [])
    (hhead : ∀ c H0, H = c :: H0 → pyIsSpace c = false)
    (hlastn : ∀ c, H.getLast? = some c → pyIsSpace c = false)
    (hidem : pyStrip H = H)
    (ha : ∀ c ∈ a, pyIsSpace c) (hb : ∀ c ∈ b, pyIsSpace c)
    (htabH : '\t' ∉ H) (htabb : '\t' ∉ b) :
    pyStrip ((a ++ H ++ b) ++ '\t' :: r) ≠ [] ∧
    pyStrip (firstTabField (pyStrip ((a ++ H ++ b) ++ '\t' :: r))) = H := by
  obtain ⟨c0, H0, hcons⟩ : ∃ c0 H0, H = c0 :: H0 := by
    cases hx : H with
    | nil => exact absurd hx hHne
    | cons c0 H0 => exact ⟨c0, H0, rfl⟩
  have hc0 : pyIsSpace c0 = false := hhead c0 H0 hcons
  obtain ⟨cl, hcl⟩ : ∃ cl, H.getLast? = some cl := by
    cases hx : H.getLast? with
    | none => rw [List.getLast?_eq_none_iff] at hx; exact absurd hx hHne
    | some cl => exact ⟨cl, rfl⟩
  have hclns : pyIsSpace cl = false := hlastn cl hcl
  have hline : (a ++ H ++ b) ++ '\t' :: r = (a ++ H) ++ (b ++ '\t' :: r) :=
    List.append_assoc (a ++ H) b ('\t' :: r)
  have hlastaH : (a ++ H).getLast? = some cl := by
    rw [List.getLast?_append, hcl]
    rfl
  have hR : pyRStrip ((a ++ H) ++ (b ++ '\t' :: r))
      = (a ++ H) ++ pyRStrip (b ++ '\t' :: r) :=
    pyRStrip_append _ _ cl hlastaH hclns
  have hstrip : pyStrip ((a ++ H ++ b) ++ '\t' :: r) = H ++ pyRStrip (b ++ '\t' :: r) := by
    rw [hline]
    show pyLStrip (pyRStrip ((a ++ H) ++ (b ++ '\t' :: r)))
        = H ++ pyRStrip (b ++ '\t' :: r)
    rw [hR, List.append_assoc, pyLStrip_append_space a _ ha, hcons, List.cons_append]
    exact pyLStrip_cons_not c0 _ hc0
  have hstripHb : pyStrip (H ++ b) = H := by
    have hrb : pyRStrip (H ++ b) = H := by
      rw [pyRStrip_append H b cl hcl hclns, pyRStrip_eq_nil_of_space b hb, List.append_nil]
    show pyLStrip (pyRStrip (H ++ b)) = H
    rw [hrb, hcons]
    exact pyLStrip_cons_not c0 H0 hc0
  constructor
  · rw [hstrip, hcons, List.cons_append]
    simp
  · rw [hstrip]
    obtain ⟨wsfx, hXdec, hwsfx⟩ := pyRStrip_decomp (b ++ '\t' :: r)
    cases hYnil : pyRStrip (b ++ '\t' :: r) with
    | nil =>
      rw [List.append_nil]
      have hf : firstTabField H = H := by
        unfold firstTabField
        rw [splitOnChar_eq_single '\t' H htabH]
        rfl
      rw [hf, hidem]
    | cons y Y0 =>
      have hYne : pyRStrip (b ++ '\t' :: r) ≠ [] := by rw [hYnil]; simp
      have h1 : (pyRStrip (b ++ '\t' :: r) ++ wsfx).take (pyRStrip (b ++ '\t' :: r)).length
          = pyRStrip (b ++ '\t' :: r) := List.take_left _ _
      rw [← hXdec] at h1
      by_cases hlen : (pyRStrip (b ++ '\t' :: r)).length ≤ b.length
      · exfalso
        rw [List.take_append_of_le_length hlen] at h1
        have hallws : ∀ c ∈ pyRStrip (b ++ '\t' :: r), pyIsSpace c := by
          intro c hcmem
          rw [← h1] at hcmem
          exact hb c (List.take_subset _ _ hcmem)
        have hd : (pyRStrip (b ++ '\t' :: r)).getLast? =
            some ((pyRStrip (b ++ '\t' :: r)).getLast hYne) :=
          List.getLast?_eq_getLast _ hYne
        have hdns : pyIsSpace ((pyRStrip (b ++ '\t' :: r)).getLast hYne) = false :=
          pyRStrip_getLast_not _ _ hd
        have hdmem : (pyRStrip (b ++ '\t' :: r)).getLast hYne ∈ pyRStrip (b ++ '\t' :: r) :=
          List.getLast_mem hYne
        exact absurd (hallws _ hdmem) (by simp [hdns])
      · rw [List.take_append_eq_append_take,
            List.take_of_length_le (by omega),
            show (pyRStrip (b ++ '\t' :: r)).length - b.length
              = ((pyRStrip (b ++ '\t' :: r)).length - b.length - 1) + 1 by omega,
            List.take_succ_cons] at h1
        rw [hYnil] at h1
        have htabHb : '\t' ∉ H ++ b := by
          intro hc
          rcases List.mem_append.mp hc with hc | hc
          exacts [htabH hc, htabb hc]
        have hfield1 : ∀ z : PyStr, firstTabField ((H ++ b) ++ '\t' :: z) = H ++ b := by
          intro z
          unfold firstTabField
          rw [splitOnChar_sep_cons '\t' _ _ htabHb]
          rfl
        rw [← h1, ← List.append_assoc, hfield1, hstripHb]

theorem matchesHeadword_record (h r w : PyStr)
    (htab : '\t' ∉ h) (hne : pyStrip h ≠ []) :
    matchesHeadword w (h ++ '\t' :: r) = (pyLower (pyStrip h) == pyLower w) := by
  obtain ⟨a, b, hdec, ha, hb⟩ := pyStrip_decomp h
  have htabH : '\t' ∉ pyStrip h := fun hc => htab (by rw [hdec]; simp [hc])
  have htabb : '\t' ∉ b := fun hc => htab (by rw [hdec]; simp [hc])
  obtain ⟨hne', hfield⟩ := strip_field_of_record (pyStrip h) a b r hne
    (fun c H0 hx => pyStrip_head_not h c H0 hx)
    (fun c hx => pyStrip_getLast_not h c hx)
    (pyStrip_idem h) ha hb htabH htabb
  have hlineeq : h ++ '\t' :: r = (a ++ pyStrip h ++ b) ++ '\t' :: r := by rw [← hdec]
  rw [hlineeq]
  simp only [matchesHeadword]
  rw [hfield]
  have hEmpty : (pyStrip ((a ++ pyStrip h ++ b) ++ '\t' :: r)).isEmpty = false := by
    cases hx : pyStrip ((a ++ pyStrip h ++ b) ++ '\t' :: r) with
    | nil => exact absurd hx hne'
    | cons u us => rfl
  rw [hEmpty]
  rfl

theorem matchesHeadword_nil (w : PyStr) : matchesHeadword w [] = false := rfl

theorem nlTerminated_decomp (c0 : PyStr) (hnl : c0 = [] ∨ c0.getLast? = some '\n') :
    c0 = [] ∨ ∃ s0, c0 = s0 ++ ['\n'] := by
  rcases hnl with h | h
  · exact Or.inl h
  · exact Or.inr ⟨c0.dropLast,
      (List.dropLast_append_getLast? '\n' (Option.mem_def.mpr h)).symm⟩

theorem tsvLine_decomp (w p s : PyStr) :
    tsvLine w p s = (w ++ '\t' :: (p ++ '\t' :: s)) ++ '\n' :: [] := by
  simp [tsvLine]

theorem tsvLine_body_no_newline (w p s : PyStr)
    (hwn : '\n' ∉ w) (hpn : '\n' ∉ p) (hsn : '\n' ∉ s) :
    '\n' ∉ w ++ '\t' :: (p ++ '\t' :: s) := by
  intro hc
  rcases List.mem_append.mp hc with hc | hc
  · exact hwn hc
  · rcases List.mem_cons.mp hc with hc | hc
    · exact absurd hc (by decide)
    · rcases List.mem_append.mp hc with hc | hc
      · exact hpn hc
      · rcases List.mem_cons.mp hc with hc | hc
        · exact absurd hc (by decide)
        · exact hsn hc

theorem splitOnChar_tsvLine (w p s : PyStr)
    (hwn : '\n' ∉ w) (hpn : '\n' ∉ p) (hsn : '\n' ∉ s) :
    splitOnChar '\n' (tsvLine w p s) = [w ++ '\t' :: (p ++ '\t' :: s), []] := by
  rw [tsvLine_decomp,
      splitOnChar_sep_cons '\n' _ _ (tsvLine_body_no_newline w p s hwn hpn hsn)]
  rfl

/- -------------------- Claims C1 and C10 -------------------- -/

/-- Claim C1, counterexample: with the whitespace-padded headword `" a "`
and a file whose (only) line's first tab-separated field is exactly `" a "`,
the claim says `append_tsv` performs no write and reports a duplicate; the
code compares the *stripped* stored field `"a"` with the *unstripped* query
`" a "`, finds no match, writes a second line, and reports no duplicate, so
the file ends with two lines whose first field equals the headword. -/
theorem append_tsv_whitespace_cex :
    (append_tsv ((" a \tx\ty\n").data) ((" a ").data) (("x").data) (("y").data)).2.2 = false ∧
    specCountHeadword
      (append_tsv ((" a \tx\ty\n").data) ((" a ").data) (("x").data) (("y").data)).1
      ((" a ").data) = 2 := by
  constructor
  · decide
  · decide

/-- Claim C1 (amended): for a headword with no tab, no newline and no
surrounding whitespace, and gloss fields with no newline, appending to a
newline-terminated (or empty) file that does not yet hold the headword
writes exactly the line `headword\tprimary\tsecondary\n` and returns
`was_duplicate = false`; a second call with the same headword in any casing
performs no write, returns `was_duplicate = true`, and the file then holds
exactly one line for that headword. -/
theorem append_tsv_idempotent_amended
    (content w w2 p s p2 s2 : PyStr)
    (hnl : content = [] ∨ content.getLast? = some '\n')
    (hw0 : w ≠ []) (hwt : '\t' ∉ w) (hwn : '\n' ∉ w) (hws : pyStrip w = w)
    (hpn : '\n' ∉ p) (hsn : '\n' ∉ s)
    (hw2 : pyLower w2 = pyLower w)
    (h0 : word_exists_in_tsv content w = false) :
    append_tsv content w p s = (content ++ tsvLine w p s, tsvLine w p s, false) ∧
    append_tsv (content ++ tsvLine w p s) w2 p2 s2
      = (content ++ tsvLine w p s, tsvLine w2 p2 s2, true) ∧
    countHeadword (content ++ tsvLine w p s) w = 1 := by
  have hsplit : splitOnChar '\n' (content ++ tsvLine w p s)
      = (splitOnChar '\n' content).dropLast ++ [w ++ '\t' :: (p ++ '\t' :: s), []] := by
    rw [splitOnChar_nlTerminated '\n' content _ (nlTerminated_decomp content hnl),
        splitOnChar_tsvLine w p s hwn hpn hsn]
  have hneW : pyStrip w ≠ [] := by rw [hws]; exact hw0
  have hmatch : matchesHeadword w (w ++ '\t' :: (p ++ '\t' :: s)) = true := by
    rw [matchesHeadword_record w _ w hwt hneW, hws]
    simp
  have hmatch2 : matchesHeadword w2 (w ++ '\t' :: (p ++ '\t' :: s)) = true := by
    rw [matchesHeadword_record w _ w2 hwt hneW, hws, hw2]
    simp
  have happend1 : append_tsv content w p s
      = (content ++ tsvLine w p s, tsvLine w p s, false) := by
    simp [append_tsv, h0]
  have hexists : word_exists_in_tsv (content ++ tsvLine w p s) w2 = true := by
    show (splitOnChar '\n' (content ++ tsvLine w p s)).any (matchesHeadword w2) = true
    rw [hsplit, List.any_eq_true]
    exact ⟨w ++ '\t' :: (p ++ '\t' :: s), by simp, hmatch2⟩
  have happend2 : append_tsv (content ++ tsvLine w p s) w2 p2 s2
      = (content ++ tsvLine w p s, tsvLine w2 p2 s2, true) := by
    simp [append_tsv, hexists]
  refine ⟨happend1, happend2, ?_⟩
  show (splitOnChar '\n' (content ++ tsvLine w p s)).countP (matchesHeadword w) = 1
  rw [hsplit, List.countP_append]
  have hz : (splitOnChar '\n' content).dropLast.countP (matchesHeadword w) = 0 := by
    rw [List.countP_eq_zero]
    intro l hl
    have h0' : (splitOnChar '\n' content).any (matchesHeadword w) = false := h0
    exact List.any_eq_false.mp h0' l (List.dropLast_subset _ hl)
  rw [hz]
  simp [List.countP_cons, hmatch, matchesHeadword_nil]

/-- Claim C1 witness: a concrete run of the amended theorem, appending
`Hej` to an empty file and re-appending as `HEJ`. -/
theorem append_tsv_idempotent_amended_witness :
    append_tsv [] (("Hej").data) (("x").data) (("y").data)
      = (tsvLine (("Hej").data) (("x").data) (("y").data),
         tsvLine (("Hej").data) (("x").data) (("y").data), false) ∧
    append_tsv (tsvLine (("Hej").data) (("x").data) (("y").data))
        (("HEJ").data) (("p").data) (("q").data)
      = (tsvLine (("Hej").data) (("x").data) (("y").data),
         tsvLine (("HEJ").data) (("p").data) (("q").data), true) ∧
    countHeadword (tsvLine (("Hej").data) (("x").data) (("y").data)) (("Hej").data) = 1 := by
  have h := append_tsv_idempotent_amended [] (("Hej").data) (("HEJ").data)
    (("x").data) (("y").data) (("p").data) (("q").data)
    (Or.inl rfl) (by decide) (by decide) (by decide) (by decide)
    (by decide) (by decide) (by decide) (by decide)
  simpa using h

/-- Claim C10, counterexample: the stored headword `hej` differs from the
queried headword `" hej "` only in surrounding whitespace, yet the duplicate
check reports no duplicate — only the stored side is stripped before the
comparison, not the query. -/
theorem word_exists_padded_query_cex :
    word_exists_in_tsv (("hej\tx\ty\n").data) ((" hej ").data) = false := by
  decide

/-- Claim C10 (amended): the duplicate check strips each stored line and its
first tab-separated field and skips blank lines, so a stored headword that
differs from the queried headword only in leading/trailing whitespace or
letter case is reported as a duplicate, provided the queried headword itself
carries no surrounding whitespace (the query is compared unstripped): for
any newline-terminated (or empty) prefix, any remaining fields and any
following contents, a stored line `h\t...` with `strip(h)` nonempty and
`lower(strip(h)) = lower(w)` makes `word_exists_in_tsv` return `True` for `w`. -/
theorem word_exists_whitespace_case_amended
    (c0 c1 h r w : PyStr)
    (hnl : c0 = [] ∨ c0.getLast? = some '\n')
    (hht : '\t' ∉ h) (hhn : '\n' ∉ h) (hrn : '\n' ∉ r)
    (hne : pyStrip h ≠ [])
    (hcase : pyLower (pyStrip h) = pyLower w) :
    word_exists_in_tsv (c0 ++ (h ++ '\t' :: r ++ '\n' :: c1)) w = true := by
  have hbody : '\n' ∉ h ++ '\t' :: r := by
    intro hc
    rcases List.mem_append.mp hc with hc | hc
    · exact hhn hc
    · rcases List.mem_cons.mp hc with hc | hc
      · exact absurd hc (by decide)
      · exact hrn hc
  have hsplit : splitOnChar '\n' (c0 ++ (h ++ '\t' :: r ++ '\n' :: c1))
      = (splitOnChar '\n' c0).dropLast ++ ((h ++ '\t' :: r) :: splitOnChar '\n' c1) := by
    rw [splitOnChar_nlTerminated '\n' c0 _ (nlTerminated_decomp c0 hnl)]
    congr 1
    exact splitOnChar_sep_cons '\n' _ _ hbody
  have hmatch : matchesHeadword w (h ++ '\t' :: r) = true := by
    rw [matchesHeadword_record h r w hht hne, hcase]
    simp
  show (splitOnChar '\n' (c0 ++ (h ++ '\t' :: r ++ '\n' :: c1))).any (matchesHeadword w) = true
  rw [hsplit, List.any_eq_true]
  exact ⟨h ++ '\t' :: r, by simp, hmatch⟩

/-- Claim C10 witness: the stored line `"  HEJ  \tx\ty"` inside a file with
other lines around it is found for the query `hej`. -/
theorem word_exists_whitespace_case_amended_witness :
    word_exists_in_tsv ((("abc\tz\tz\n").data) ++
      ((("  HEJ  ").data) ++ '\t' :: (("x\ty").data) ++ '\n' :: (("tail").data)))
      (("hej").data) = true := by
  exact word_exists_whitespace_case_amended (("abc\tz\tz\n").data) (("tail").data)
    (("  HEJ  ").data) (("x\ty").data) (("hej").data)
    (Or.inr (by decide)) (by decide) (by decide) (by decide) (by decide) (by decide)

/- -------------------- Claims C7 and C9 -------------------- -/

theorem tsv_path_for_lang_some (s : PyStr) (hs : s ≠ []) :
    tsv_path_for_lang (some s)
      = (("vocab_").data)
        ++ (if (pyLower s).length > 2 then (splitOnChar '-' (pyLower s)).headD []
            else pyLower s)
        ++ ((".tsv").data) := by
  simp only [tsv_path_for_lang]
  rw [if_neg hs]

/-- Claim C7, counterexample: the resolved code `swedish` (any forced
`--lang` string is accepted unvalidated) produces `vocab_swedish.tsv`,
whose embedded code is the seven-letter `swedish`, not a two-letter code:
the function lowercases and strips a region suffix but never truncates to
two letters. -/
theorem tsv_path_code_length_cex :
    tsv_path_for_lang (some (("swedish").data)) = (("vocab_swedish.tsv").data) ∧
    pathCode (tsv_path_for_lang (some (("swedish").data))) = (("swedish").data) ∧
    ((("swedish").data).length = 2) = False := by
  refine ⟨by decide, by decide, by decide⟩

/-- Claim C7 (amended): `tsv_path_for_lang` returns `vocab_<code>.tsv` where
`<code>` is the lowercased input with the part after the first hyphen
stripped whenever the lowercased input is longer than two characters (the
result is not necessarily two letters).  In particular, for a non-empty
hyphen-free base of total length at least two with any region suffix,
`tsv_path_for_lang (base ++ "-" ++ region) = tsv_path_for_lang base`, so
`"zh-cn"` and `"zh"` resolve to the same file. -/
theorem tsv_path_for_lang_amended (s r : PyStr) (hs : s ≠ [])
    (hdash : '-' ∉ pyLower s) (hlen : 2 ≤ s.length + r.length) :
    tsv_path_for_lang (some (s ++ '-' :: r)) = tsv_path_for_lang (some s) := by
  have hX : s ++ '-' :: r ≠ [] := by simp
  rw [tsv_path_for_lang_some _ hX, tsv_path_for_lang_some s hs]
  have hlow : pyLower (s ++ '-' :: r) = pyLower s ++ '-' :: pyLower r := by
    simp [pyLower, show Char.toLower '-' = '-' from by decide]
  rw [hlow]
  have hlen1 : (pyLower s ++ '-' :: pyLower r).length > 2 := by
    rw [List.length_append, List.length_cons, pyLower_length, pyLower_length]
    omega
  rw [if_pos hlen1, splitOnChar_sep_cons '-' _ _ hdash]
  simp only [List.headD_cons]
  by_cases h2 : (pyLower s).length > 2
  · rw [if_pos h2, splitOnChar_eq_single '-' _ hdash]
    rfl
  · rw [if_neg h2]

/-- Claim C7 witness: `zh-cn` and `zh` produce the same file name. -/
theorem tsv_path_for_lang_amended_witness :
    tsv_path_for_lang (some (("zh-cn").data)) = tsv_path_for_lang (some (("zh").data)) := by
  have h := tsv_path_for_lang_amended (("zh").data) (("cn").data)
    (by decide) (by decide) (by decide)
  have he : ("zh").data ++ '-' :: ("cn").data = ("zh-cn").data := by decide
  rw [he] at h
  exact h

/-- Claim C9: a missing language code — `None` or the empty string — maps
to the English file `vocab_en.tsv` (`lang_code or "en"` defaults before any
other processing), rather than failing or producing an empty-code name. -/
theorem tsv_path_for_lang_default_en :
    tsv_path_for_lang none = (("vocab_en.tsv").data) ∧
    tsv_path_for_lang (some []) = (("vocab_en.tsv").data) := by
  exact ⟨by decide, by decide⟩

/- -------------------- Claim C4 -------------------- -/

theorem detect_lang_shell_spec (d2 : Option PyStr)
    (h2 : ∀ o x cs, d2 = some o → pyLower (pyStrip o) = x :: cs → x ≠ '-') :
    detect_lang_shell d2 ≠ [] ∧
    pyLower (detect_lang_shell d2) = detect_lang_shell d2 ∧
    ((d2 = none ∨ pyStrip (d2.getD []) = []) → detect_lang_shell d2 = ('e' :: 'n' :: [])) := by
  cases d2 with
  | none => exact ⟨by decide, by decide, fun _ => rfl⟩
  | some out =>
    simp only [detect_lang_shell]
    split_ifs with hA hB hC hD hE hF
    · refine ⟨by decide, by decide, fun hc => ?_⟩
      have hso : pyStrip out = [] := by simpa using hc
      exact absurd (hso ▸ hA) (by decide)
    · refine ⟨by decide, by decide, fun hc => ?_⟩
      have hso : pyStrip out = [] := by simpa using hc
      exact absurd (hso ▸ hB) (by decide)
    · refine ⟨by decide, by decide, fun hc => ?_⟩
      have hso : pyStrip out = [] := by simpa using hc
      exact absurd (hso ▸ hC) (by decide)
    · refine ⟨by decide, by decide, fun hc => ?_⟩
      have hso : pyStrip out = [] := by simpa using hc
      exact absurd (hso ▸ hD) (by decide)
    · refine ⟨by decide, by decide, fun hc => ?_⟩
      have hso : pyStrip out = [] := by simpa using hc
      exact absurd (hso ▸ hE) (by decide)
    · obtain ⟨x, cs, hcode⟩ : ∃ x cs, pyLower (pyStrip out) = x :: cs := by
        cases hx : pyLower (pyStrip out) with
        | nil => exact absurd hx hF
        | cons x cs => exact ⟨x, cs, rfl⟩
      have hx : x ≠ '-' := h2 out x cs rfl hcode
      obtain ⟨t, ht⟩ := splitOnChar_headD_cons '-' x cs hx
      have hfix : pyLower ((splitOnChar '-' (pyLower (pyStrip out))).headD [])
          = (splitOnChar '-' (pyLower (pyStrip out))).headD [] := by
        obtain ⟨u, hu⟩ := splitOnChar_headD_append '-' (pyLower (pyStrip out))
        refine pyLower_fix_of_append _ u ?_
        rw [← hu]
        exact pyLower_idem (pyStrip out)
      refine ⟨?_, ?_, fun hc => ?_⟩
      · rw [hcode, ht]
        simp
      · rw [pyLower_take, hfix]
      · have hso : pyStrip out = [] := by simpa using hc
        exact absurd (hso ▸ hcode) (by simp [pyLower])
    · exact ⟨by decide, by decide, fun _ => rfl⟩

/-- Claim C4, counterexample: a primary detector that returns the string
`-x` (the claim quantifies over detectors returning arbitrary strings) makes
`detect_lang_auto` return `"-x".split("-")[0]`, the empty string — not a
non-empty lowercase string of two or more characters. -/
theorem detect_lang_auto_empty_cex :
    detect_lang_auto (some ('-' :: 'x' :: [])) none = [] := by decide

/-- Claim C4 (amended): automatic language resolution (exceptions modelled
as `none` oracle results, all swallowed) returns the default `en` when every
detector fails — raises or yields an empty/blank result — and returns a
non-empty all-lowercase string whenever the primary detector's result, if
any, is lowercase and does not start with a hyphen, and the shell detector's
stripped lowercased output, if non-empty, does not start with a hyphen.
The result is not always of length at least two: only the hyphen-prefix of
the primary detector's code is taken, unchanged. -/
theorem detect_lang_auto_amended (d1 d2 : Option PyStr)
    (h1 : ∀ x cs, d1 = some (x :: cs) → pyLower (x :: cs) = x :: cs ∧ x ≠ '-')
    (h2 : ∀ o x cs, d2 = some o → pyLower (pyStrip o) = x :: cs → x ≠ '-') :
    detect_lang_auto d1 d2 ≠ [] ∧
    pyLower (detect_lang_auto d1 d2) = detect_lang_auto d1 d2 ∧
    ((d1 = none ∨ d1 = some []) → (d2 = none ∨ pyStrip (d2.getD []) = []) →
      detect_lang_auto d1 d2 = ('e' :: 'n' :: [])) := by
  have hshell := detect_lang_shell_spec d2 h2
  cases d1 with
  | none =>
    exact ⟨hshell.1, hshell.2.1, fun _ hfail => hshell.2.2 hfail⟩
  | some c =>
    cases c with
    | nil =>
      have hred : detect_lang_auto (some []) d2 = detect_lang_shell d2 := by
        simp [detect_lang_auto]
      rw [hred]
      exact ⟨hshell.1, hshell.2.1, fun _ hfail => hshell.2.2 hfail⟩
    | cons x cs =>
      obtain ⟨hlow, hx⟩ := h1 x cs rfl
      have hred : detect_lang_auto (some (x :: cs)) d2
          = (splitOnChar '-' (x :: cs)).headD [] := by
        simp [detect_lang_auto]
      rw [hred]
      obtain ⟨t, ht⟩ := splitOnChar_headD_cons '-' x cs hx
      refine ⟨by rw [ht]; simp, ?_, ?_⟩
      · obtain ⟨u, hu⟩ := splitOnChar_headD_append '-' (x :: cs)
        exact pyLower_fix_of_append _ u (by rw [← hu]; exact hlow)
      · intro hcontra _
        rcases hcontra with hcontra | hcontra <;> simp at hcontra

/-- Claim C4 witness: the primary detector raises, the shell detector
prints ` Swedish `, and resolution returns the non-empty lowercase `sv`. -/
theorem detect_lang_auto_amended_witness :
    detect_lang_auto none (some ((" Swedish ").data)) ≠ [] ∧
    pyLower (detect_lang_auto none (some ((" Swedish ").data)))
      = detect_lang_auto none (some ((" Swedish ").data)) ∧
    (((none : Option PyStr) = none ∨ (none : Option PyStr) = some []) →
      ((some ((" Swedish ").data) = none) ∨ pyStrip ((some ((" Swedish ").data)).getD []) = []) →
      detect_lang_auto none (some ((" Swedish ").data)) = ('e' :: 'n' :: [])) := by
  apply detect_lang_auto_amended
  · intro x cs hx
    exact absurd hx (by simp)
  · intro o x cs ho hcode
    have ho' : o = (" Swedish ").data := (Option.some.inj ho).symm
    subst ho'
    have hval : pyLower (pyStrip ((" Swedish ").data)) = (("swedish").data) := by decide
    rw [hval] at hcode
    have hxs : 's' = x := by
      have := congrArg List.head? hcode
      simpa using this
    rw [← hxs]
    decide

/- -------------------- Claims C2 and C8 -------------------- -/

/-- Claim C2, counterexample: in the multi-language script an HTTP 404 from
the dictionary service is swallowed inside `fetch_json` (its blanket
`except Exception` catches `HTTPError`), which returns `None`; the
definitions list is then empty, not the diagnostic
`["(dictapi HTTP 404)"]` the claim requires. -/
theorem dictapi_http_error_cex :
    english_defs_from_dictionaryapi (HttpResult.httpError 404) (Except.error []) []
      = (none, []) ∧
    ([] : List PyStr) ≠ [(("(dictapi HTTP 404)").data)] := by
  exact ⟨rfl, by decide⟩

/-- Claim C2 (amended): in src/lookup_to_anki.py a fetch failure yields the
single diagnostic string — `"(dictapi HTTP <code>)"` for an HTTP error and
`"(dictapi error: <detail>)"` for a parse error — while in
src/lookup_to_anki_multi_lang.py `fetch_json` absorbs HTTP and parse errors
and returns `None`, so `english_defs_from_dictionaryapi` there returns an
empty definitions list (empty primary gloss) for those failures. -/
theorem english_dict_fetch_failure_amended :
    (∀ (c : Nat) (parsed : Except PyStr Json) (d : PyStr),
      english_defs_from_dictionaryapi_v1 (.httpError c) parsed d
        = (none, [(("(dictapi HTTP ").data) ++ (toString c).data ++ [')']])) ∧
    (∀ (content msg d : PyStr),
      english_defs_from_dictionaryapi_v1 (.body content) (.error msg) d
        = (none, [(("(dictapi error: ").data) ++ msg ++ [')']])) ∧
    (∀ (c : Nat) (parsed : Except PyStr Json) (d : PyStr),
      english_defs_from_dictionaryapi (.httpError c) parsed d = (none, [])) ∧
    (∀ (content msg d : PyStr),
      english_defs_from_dictionaryapi (.body content) (.error msg) d = (none, [])) := by
  refine ⟨fun c parsed d => rfl, fun content msg d => rfl, fun c parsed d => rfl, ?_⟩
  intro content msg d
  have hf : fetch_json (.body content) (.error msg) = none := by
    simp only [fetch_json]
    split_ifs <;> rfl
  show defsFromData (fetch_json (.body content) (.error msg)) d = (none, [])
  rw [hf]
  rfl

theorem firstAudio_ok (ps : List Json) (h : ∀ p ∈ ps, ∃ pk, p = Json.obj pk) :
    ∃ a, firstAudio ps = Except.ok a := by
  induction ps with
  | nil => exact ⟨none, rfl⟩
  | cons p ps ih =>
    obtain ⟨pk, hpk⟩ := h p (List.mem_cons_self p ps)
    subst hpk
    by_cases ht : pyTruthy ((jget pk (("audio").data)).getD Json.null)
    · exact ⟨some ((jget pk (("audio").data)).getD Json.null), by simp [firstAudio, ht]⟩
    · obtain ⟨a, ha⟩ := ih (fun q hq => h q (List.mem_cons_of_mem _ hq))
      exact ⟨a, by simp [firstAudio, ht, ha]⟩

/-- Claim C8, counterexample: a response that parses as a non-empty list
whose first entry has an empty meanings list but a non-list `phonetics`
value makes the phonetics loop raise (iterating the dict yields a string key
whose `.get` is an `AttributeError`), so the definitions list is the
diagnostic string, not empty. -/
theorem english_defs_malformed_phonetics_cex :
    (english_defs_from_dictionaryapi (.body (("x").data))
      (.ok (Json.arr [Json.obj [((("phonetics").data), Json.obj [((("a").data), Json.null)]),
                                ((("meanings").data), Json.arr [])]]))
      (("boom").data)).2
      = [(("(dictapi error: boom)").data)] ∧
    [(("(dictapi error: boom)").data)] ≠ ([] : List PyStr) := by
  exact ⟨rfl, by decide⟩

/-- Claim C8 (amended): for a dictionary-service response delivering a
non-empty JSON list whose first entry is an object with an empty meanings
list and a well-formed phonetics list (absent, or a list of objects), the
English gloss path returns an empty definitions list — hence an empty
primary gloss — without raising, and `append_tsv` still appends the record
`term\t\tzh` for a headword not already stored. -/
theorem english_defs_empty_meanings_amended
    (kvs : List (PyStr × Json)) (rest : List Json) (ps : List Json)
    (content exDetail : PyStr)
    (hc1 : (pyStrip content).isEmpty = false)
    (hc2 : (pyStrip content).head? ≠ some '<')
    (hphon : (jget kvs (("phonetics").data)).getD (Json.arr []) = Json.arr ps)
    (hps : ∀ p ∈ ps, ∃ pk, p = Json.obj pk)
    (hmean : jget kvs (("meanings").data) = some (Json.arr [])) :
    (english_defs_from_dictionaryapi (.body content)
      (.ok (Json.arr (Json.obj kvs :: rest))) exDetail).2 = [] ∧
    (∀ (fc term zh : PyStr), word_exists_in_tsv fc term = false →
      append_tsv fc term
        (joinGlosses (english_defs_from_dictionaryapi (.body content)
          (.ok (Json.arr (Json.obj kvs :: rest))) exDetail).2) zh
        = (fc ++ tsvLine term [] zh, tsvLine term [] zh, false)) := by
  have hfetch : fetch_json (.body content) (.ok (Json.arr (Json.obj kvs :: rest)))
      = some (Json.arr (Json.obj kvs :: rest)) := by
    simp only [fetch_json]
    rw [if_neg (by simp [hc1]), if_neg hc2]
  have hiter1 : iterElems ((jget kvs (("phonetics").data)).getD (Json.arr [])) = some ps := by
    rw [hphon]
    rfl
  have hiter2 : iterElems ((jget kvs (("meanings").data)).getD (Json.arr [])) = some [] := by
    rw [hmean]
    rfl
  obtain ⟨a, ha⟩ := firstAudio_ok ps hps
  have hex : extractEntry (Json.obj kvs) = Except.ok (a, []) := by
    simp only [extractEntry, hiter1, hiter2, ha]
    rfl
  have hdefs : english_defs_from_dictionaryapi (.body content)
      (.ok (Json.arr (Json.obj kvs :: rest))) exDetail = (a, []) := by
    unfold english_defs_from_dictionaryapi
    rw [hfetch]
    simp only [defsFromData, hex]
  refine ⟨by rw [hdefs], ?_⟩
  intro fc term zh h0
  rw [hdefs]
  simp [append_tsv, h0, joinGlosses]

/-- Claim C8 witness: the response `[{"meanings": []}]` yields an empty
definitions list and the record `hej\t\tz` is still appended to an empty
file. -/
theorem english_defs_empty_meanings_amended_witness :
    (english_defs_from_dictionaryapi (.body (("x").data))
      (.ok (Json.arr (Json.obj [((("meanings").data), Json.arr [])] :: []))) (("d").data)).2
      = [] ∧
    append_tsv [] (("hej").data)
      (joinGlosses (english_defs_from_dictionaryapi (.body (("x").data))
        (.ok (Json.arr (Json.obj [((("meanings").data), Json.arr [])] :: []))) (("d").data)).2)
      (("z").data)
      = ([] ++ tsvLine (("hej").data) [] (("z").data),
         tsvLine (("hej").data) [] (("z").data), false) := by
  have h := english_defs_empty_meanings_amended
    [((("meanings").data), Json.arr [])] [] [] (("x").data) (("d").data)
    (by decide) (by decide) rfl (fun p hp => absurd hp (List.not_mem_nil p)) rfl
  exact ⟨h.1, h.2 [] (("hej").data) (("z").data) (by decide)⟩

/- -------------------- Claim C3 -------------------- -/

/-- Claim C3, counterexample: with no term argument the multi-language
script's `argparse` parser exits with status 2 (missing required
positional), not the claimed exit code 1. -/
theorem cli_no_term_exit_cex :
    main_exit_ml [] = 2 ∧ (2 : Nat) ≠ 1 := ⟨rfl, by decide⟩

/-- Claim C3 (amended): src/lookup_to_anki.py exits 1 with a usage message
exactly when no term is supplied, and exits 0 otherwise;
src/lookup_to_anki_multi_lang.py exits 2 (argparse) exactly when no term is
supplied and 0 otherwise.  With a term, the pipeline components catch their
own errors; unhandled OS-level faults (e.g. filesystem errors) are outside
this model. -/
theorem cli_exit_codes_amended (argv termArgs : List PyStr) :
    ((main_exit_v1 argv).1 = 1 ↔ argv.length < 2) ∧
    ((main_exit_v1 argv).2.isSome ↔ argv.length < 2) ∧
    ((main_exit_v1 argv).1 = 0 ↔ ¬ argv.length < 2) ∧
    (main_exit_ml termArgs = 2 ↔ termArgs = []) ∧
    (main_exit_ml termArgs = 0 ↔ termArgs ≠ []) := by
  unfold main_exit_v1 main_exit_ml
  by_cases h : argv.length < 2 <;> by_cases h2 : termArgs = [] <;>
    simp [h, h2, List.isEmpty_iff]

/- -------------------- Claim C5 -------------------- -/

/-- Claim C5 (code bug): the multi-language `git_commit_push` stages,
commits and pushes nothing — its first statement references the undefined
name `tsv_path`, the `NameError` is swallowed by the blanket `except`, and
the attempted-command trace is empty even with the push flag set and a
remote configured.  The predecessor `git_commit_push` in
src/lookup_to_anki.py shows the intent: stage, commit, and push exactly
when auto-push is enabled and a remote exists. -/
theorem git_commit_push_noop (m : PyStr) (p r : Bool) :
    git_commit_push m p r = [] ∧
    git_commit_push_v1 (("vocab.tsv").data) m p r ≠ [] ∧
    ((GitCmd.push ∈ git_commit_push_v1 (("vocab.tsv").data) m p r) ↔ (p ∧ r)) := by
  refine ⟨rfl, by simp [git_commit_push_v1], ?_⟩
  unfold git_commit_push_v1
  by_cases hp : p <;> by_cases hr : r <;> simp [hp, hr]

/- -------------------- lemmas: substrings -------------------- -/

theorem isPrefixOf_append_self (sep r : PyStr) : sep.isPrefixOf (sep ++ r) = true := by
  induction sep with
  | nil => simp
  | cons a as ih =>
    rw [List.cons_append, List.isPrefixOf_cons₂, ih]
    simp

theorem isPrefixOf_eq_append (sep s : PyStr) (h : sep.isPrefixOf s = true) :
    s = sep ++ s.drop sep.length := by
  induction sep generalizing s with
  | nil => simp
  | cons a as ih =>
    cases s with
    | nil => simp at h
    | cons b bs =>
      rw [List.isPrefixOf_cons₂, Bool.and_eq_true, beq_iff_eq] at h
      obtain ⟨hab, hpre⟩ := h
      subst hab
      have := ih bs hpre
      rw [List.length_cons, List.drop_succ_cons, List.cons_append]
      exact congrArg (a :: ·) this

theorem isPrefixOf_of_append_le (sep u v : PyStr) (h : sep.isPrefixOf (u ++ v) = true)
    (hlen : sep.length ≤ u.length) : sep.isPrefixOf u = true := by
  induction sep generalizing u v with
  | nil => simp
  | cons a as ih =>
    cases u with
    | nil => simp at hlen
    | cons b u' =>
      rw [List.cons_append, List.isPrefixOf_cons₂, Bool.and_eq_true] at h
      rw [List.isPrefixOf_cons₂, Bool.and_eq_true]
      exact ⟨h.1, ih u' v h.2 (by simpa using hlen)⟩

theorem splitAtSub_eq_append (sep s a b : PyStr) (h : splitAtSub sep s = some (a, b)) :
    s = a ++ sep ++ b := by
  induction s generalizing a b with
  | nil =>
    simp only [splitAtSub] at h
    split_ifs at h with hsep
    · injection h with h'
      obtain ⟨ha, hb⟩ : ([] : PyStr) = a ∧ ([] : PyStr) = b := by
        simpa [Prod.ext_iff] using h'
      have hsepnil : sep = [] := by simpa [List.isEmpty_iff] using hsep
      rw [← ha, ← hb, hsepnil]
      rfl
  | cons x xs ih =>
    simp only [splitAtSub] at h
    split_ifs at h with hpre
    · injection h with h'
      obtain ⟨ha, hb⟩ : ([] : PyStr) = a ∧ (x :: xs).drop sep.length = b := by
        simpa [Prod.ext_iff] using h'
      rw [← ha, ← hb, List.nil_append]
      exact isPrefixOf_eq_append sep (x :: xs) hpre
    · cases hsx : splitAtSub sep xs with
      | none => rw [hsx] at h; exact absurd h (by simp)
      | some pr =>
        obtain ⟨a', b'⟩ := pr
        rw [hsx] at h
        injection h with h'
        obtain ⟨ha, hb⟩ : x :: a' = a ∧ b' = b := by
          simpa [Prod.ext_iff] using h'
        rw [← ha, ← hb, List.cons_append, List.cons_append]
        exact congrArg (x :: ·) (ih a' b' hsx)

theorem hasSub_cons_eq (sep : PyStr) (x : Char) (xs : PyStr) :
    hasSub sep (x :: xs) = (sep.isPrefixOf (x :: xs) || hasSub sep xs) := rfl

theorem splitAtSub_none_of_hasSub_false (sep s : PyStr) (h : hasSub sep s = false) :
    splitAtSub sep s = none := by
  induction s with
  | nil =>
    have hsep : sep.isEmpty = false := h
    simp only [splitAtSub]
    rw [if_neg (by simp [hsep])]
  | cons x xs ih =>
    rw [hasSub_cons_eq, Bool.or_eq_false_iff] at h
    simp only [splitAtSub]
    rw [if_neg (by simp [h.1]), ih h.2]
    rfl

theorem splitAtSub_first (sep l r : PyStr) (hsep : sep ≠ [])
    (hfirst : hasSub sep (l ++ sep.dropLast) = false) :
    splitAtSub sep (l ++ sep ++ r) = some (l, r) := by
  induction l with
  | nil =>
    simp only [List.nil_append]
    cases hs : sep ++ r with
    | nil =>
      rcases List.append_eq_nil.mp hs with ⟨h1, _⟩
      exact absurd h1 hsep
    | cons z zs =>
      simp only [splitAtSub]
      rw [← hs, if_pos (isPrefixOf_append_self sep r), List.drop_left]
  | cons x l' ih =>
    obtain ⟨cl, hcl⟩ : ∃ cl, sep.getLast? = some cl := by
      cases hx : sep.getLast? with
      | none => rw [List.getLast?_eq_none_iff] at hx; exact absurd hx hsep
      | some cl => exact ⟨cl, rfl⟩
    have hsepdec : sep.dropLast ++ [cl] = sep :=
      List.dropLast_append_getLast? cl (Option.mem_def.mpr hcl)
    have hnotpre : sep.isPrefixOf (x :: (l' ++ sep ++ r)) = false := by
      by_contra hcon
      have hcon' : sep.isPrefixOf (x :: (l' ++ sep ++ r)) = true := by
        cases hb : sep.isPrefixOf (x :: (l' ++ sep ++ r)) with
        | false => exact absurd hb hcon
        | true => rfl
      have hfull : x :: (l' ++ sep ++ r) = ((x :: l') ++ sep.dropLast) ++ (cl :: r) := by
        conv_lhs => rw [← hsepdec]
        simp [List.append_assoc]
      rw [hfull] at hcon'
      have hlen : sep.length ≤ ((x :: l') ++ sep.dropLast).length := by
        rw [List.length_append, List.length_cons, List.length_dropLast]
        have := List.length_pos.mpr hsep
        omega
      have hpref := isPrefixOf_of_append_le sep _ _ hcon' hlen
      have hyes : hasSub sep ((x :: l') ++ sep.dropLast) = true := by
        have h1 : hasSub sep ((x :: l') ++ sep.dropLast)
            = (sep.isPrefixOf ((x :: l') ++ sep.dropLast)
               || hasSub sep (l' ++ sep.dropLast)) := rfl
        rw [h1, hpref]
        simp
      rw [hyes] at hfirst
      exact absurd hfirst (by simp)
    have hrec : hasSub sep (l' ++ sep.dropLast) = false := by
      have h1 : hasSub sep ((x :: l') ++ sep.dropLast)
          = (sep.isPrefixOf ((x :: l') ++ sep.dropLast)
             || hasSub sep (l' ++ sep.dropLast)) := rfl
      rw [h1, Bool.or_eq_false_iff] at hfirst
      exact hfirst.2
    have hexpose : (x :: l') ++ sep ++ r = x :: (l' ++ sep ++ r) := rfl
    rw [hexpose]
    simp only [splitAtSub]
    have hng : ¬ (sep.isPrefixOf (x :: (l' ++ sep ++ r)) = true) := by
      rw [hnotpre]
      exact Bool.false_ne_true
    rw [if_neg hng, ih hrec]
    rfl

theorem hasSub_brack (u : PyStr) (hu : ']' ∉ u) :
    hasSub ((("] ").data)) (u ++ [']']) = false := by
  induction u with
  | nil => decide
  | cons x u' ih =>
    have hx : x ≠ ']' := fun hh => hu (hh ▸ List.mem_cons_self x u')
    have hrec := ih (fun hh => hu (List.mem_cons_of_mem x hh))
    have h1 : hasSub ((("] ").data)) ((x :: u') ++ [']'])
        = ((("] ").data).isPrefixOf ((x :: u') ++ [']'])
           || hasSub ((("] ").data)) (u' ++ [']'])) := rfl
    rw [h1, hrec]
    have h2 : (("] ").data).isPrefixOf ((x :: u') ++ [']']) = false := by
      show (']' :: ' ' :: []).isPrefixOf (x :: (u' ++ [']'])) = false
      rw [List.isPrefixOf_cons₂]
      have : (']' == x) = false := by
        cases hb : ']' == x with
        | false => rfl
        | true => exact absurd (beq_iff_eq.mp hb).symm hx
      rw [this]
      rfl
    rw [h2]
    rfl

theorem strip_fix_head_not (u : PyStr) (c : Char) (cs : PyStr)
    (hfix : pyStrip u = u) (hu : u = c :: cs) : pyIsSpace c = false :=
  pyStrip_head_not u c cs (hfix.trans hu)

theorem pyStrip_ne_nil_of_head (c : Char) (cs : PyStr) (hc : pyIsSpace c = false) :
    pyStrip (c :: cs) ≠ [] :=
  pyStrip_ne_nil (c :: cs) c (List.mem_cons_self c cs) hc

theorem extract_sv_word_ne (first : PyStr) (rest : List PyStr) (pre : PyStr)
    (c : Char) (cs : PyStr)
    (hsplit : splitAtSub ((("] ").data)) first = some (pre, c :: cs))
    (hc : pyIsSpace c = false) :
    extract_sv_word (first :: rest) ≠ [] := by
  simp only [extract_sv_word, hsplit]
  cases h2 : splitAtSub (((" - ").data)) (c :: cs) with
  | some pr2 =>
    obtain ⟨a2, b2⟩ := pr2
    have heq := splitAtSub_eq_append _ _ _ _ h2
    cases ha2 : a2 with
    | nil =>
      rw [ha2] at heq
      have hcsp : c = ' ' := by
        have := congrArg List.head? heq
        simpa using this
      exact absurd hc (by rw [hcsp]; decide)
    | cons d a2' =>
      rw [ha2] at heq
      have hd : c = d := by
        have := congrArg List.head? heq
        simpa using this
      show pyStrip (d :: a2') ≠ []
      rw [← hd]
      exact pyStrip_ne_nil_of_head c a2' hc
  | none =>
    cases h3 : splitAtSub (((" (").data)) (c :: cs) with
    | some pr3 =>
      obtain ⟨a3, b3⟩ := pr3
      have heq := splitAtSub_eq_append _ _ _ _ h3
      cases ha3 : a3 with
      | nil =>
        rw [ha3] at heq
        have hcsp : c = ' ' := by
          have := congrArg List.head? heq
          simpa using this
        exact absurd hc (by rw [hcsp]; decide)
      | cons d a3' =>
        rw [ha3] at heq
        have hd : c = d := by
          have := congrArg List.head? heq
          simpa using this
        show pyStrip (d :: a3') ≠ []
        rw [← hd]
        exact pyStrip_ne_nil_of_head c a3' hc
    | none =>
      show pyStrip (c :: cs) ≠ []
      exact pyStrip_ne_nil_of_head c cs hc

theorem startswith_extend (u a b : PyStr) (h : ∃ tl, a = u ++ tl) :
    ∃ tl, a ++ b = u ++ tl := by
  obtain ⟨tl, htl⟩ := h
  exact ⟨tl ++ b, by rw [htl, List.append_assoc]⟩

set_option maxHeartbeats 1000000 in
theorem en2sv_pattern_startswith (w t ex : PyStr) (h : en2sv_pattern w t = some ex) :
    ∃ tl, ex = t ++ tl := by
  unfold en2sv_pattern at h
  split_ifs at h
  all_goals
    first
    | exact Option.noConfusion h
    | (injection h with hf
       subst hf
       repeat' (first | exact ⟨_, rfl⟩ | apply startswith_extend))

theorem filterMap_cons_head {α β : Type} (g : α → Option β) (l : List α) (f : β)
    (fs : List β) (h : l.filterMap g = f :: fs) : ∃ e ∈ l, g e = some f := by
  induction l generalizing fs with
  | nil => simp at h
  | cons x xs ih =>
    rw [List.filterMap_cons] at h
    cases hg : g x with
    | none =>
      rw [hg] at h
      obtain ⟨e, he, hge⟩ := ih fs h
      exact ⟨e, List.mem_cons_of_mem x he, hge⟩
    | some y =>
      rw [hg] at h
      injection h with h1 h2
      exact ⟨x, List.mem_cons_self x xs, by rw [hg, h1]⟩

theorem folketsTranslations_head (entries : List FolketsEntry) (f : PyStr)
    (fs : List PyStr) (h : folketsTranslations (some entries) = f :: fs) :
    ∃ e, e ∈ entries ∧ e.translation ≠ [] ∧
      ∃ tail, f = ('[' :: e.cls) ++ (("] ").data) ++ (e.translation ++ tail) := by
  obtain ⟨e, he, hge⟩ := filterMap_cons_head _ _ f fs h
  refine ⟨e, List.take_subset 2 entries he, ?_, ?_⟩
  · intro hnil
    rw [if_pos (by simp [hnil])] at hge
    exact absurd hge (by simp)
  · split_ifs at hge with h1 h2
    · injection hge with hf
      exact ⟨[], by rw [← hf]; simp⟩
    · injection hge with hf
      refine ⟨((" (e.g. ").data) ++ e.examples.headD [] ++ [')'], ?_⟩
      rw [← hf]
      simp [List.append_assoc]

/-- Claim C6: in `en2sv` mode the persisted headword is the translated
Swedish word — extracted from the first translation result, whose shapes the
code itself produces (Folkets entries are bracket-formatted with a stripped
regex-captured translation and a `\w+` word class; the translate-shell
templates are bracket-formatted and begin with the stripped bridge
translation) — and falls back to the bridge translation and only as a last
resort to the original term, which under these shapes never happens while a
translation exists; the record is written to `vocab_sv.tsv` unconditionally
in this branch.  The two bridge invocations with identical arguments are
modelled by one oracle value `t`. -/
theorem en2sv_headword_translated
    (data : Option (List FolketsEntry)) (term t : PyStr)
    (hdata : ∀ e ∈ data.getD [], pyStrip e.translation = e.translation ∧ ']' ∉ e.cls)
    (ht : pyStrip t = t)
    (htrans : folketsTranslations data ≠ [] ∨ t ≠ []) :
    extract_sv_word (english_to_swedish_with_examples data term t) ≠ [] ∧
    en2sv_headword data term t
      = extract_sv_word (english_to_swedish_with_examples data term t) ∧
    tsv_path_for_lang (some ('s' :: 'v' :: [])) = (("vocab_sv.tsv").data) := by
  have hne : extract_sv_word (english_to_swedish_with_examples data term t) ≠ [] := by
    by_cases hf : folketsTranslations data = []
    · have ht' : t ≠ [] := by
        rcases htrans with h | h
        · exact absurd hf h
        · exact h
      obtain ⟨c, cs, hct⟩ : ∃ c cs, t = c :: cs := by
        cases hx : t with
        | nil => exact absurd hx ht'
        | cons c cs => exact ⟨c, cs, rfl⟩
      have hc : pyIsSpace c = false := strip_fix_head_not t c cs ht hct
      subst hct
      have hlit : ("[word] ").data = ("[word").data ++ (("] ").data) := by decide
      cases hp : en2sv_pattern (pyLower term) (c :: cs) with
      | some ex =>
        have hsv : english_to_swedish_with_examples data term (c :: cs)
            = [("[word] ").data ++ ex] := by
          simp only [english_to_swedish_with_examples]
          rw [hf, hp]
          rfl
        obtain ⟨tl, hex⟩ := en2sv_pattern_startswith _ _ _ hp
        have hform : ("[word] ").data ++ ex
            = (("[word").data) ++ (("] ").data) ++ (c :: (cs ++ tl)) := by
          rw [hex, hlit]
          simp [List.append_assoc]
        have hsplit : splitAtSub ((("] ").data)) (("[word] ").data ++ ex)
            = some ((("[word").data), c :: (cs ++ tl)) := by
          rw [hform]
          exact splitAtSub_first _ _ _ (by decide) (by decide)
        rw [hsv]
        exact extract_sv_word_ne _ [] _ c (cs ++ tl) hsplit hc
      | none =>
        have hsv : english_to_swedish_with_examples data term (c :: cs)
            = [("[word] ").data ++ (c :: cs)
               ++ ((" (e.g. Jag lär mig svenska ord som ").data)
               ++ apos :: (c :: cs) ++ apos :: [')']] := by
          simp only [english_to_swedish_with_examples]
          rw [hf, hp]
          rfl
        have hform : ("[word] ").data ++ (c :: cs)
               ++ ((" (e.g. Jag lär mig svenska ord som ").data)
               ++ apos :: (c :: cs) ++ apos :: [')']
            = (("[word").data) ++ (("] ").data)
              ++ (c :: (cs ++ ((" (e.g. Jag lär mig svenska ord som ").data)
                  ++ apos :: (c :: cs) ++ apos :: [')'])) := by
          rw [hlit]
          simp [List.append_assoc]
        have hsplit : splitAtSub ((("] ").data))
            (("[word] ").data ++ (c :: cs)
               ++ ((" (e.g. Jag lär mig svenska ord som ").data)
               ++ apos :: (c :: cs) ++ apos :: [')'])
            = some ((("[word").data),
                c :: (cs ++ ((" (e.g. Jag lär mig svenska ord som ").data)
                  ++ apos :: (c :: cs) ++ apos :: [')'])) := by
          rw [hform]
          exact splitAtSub_first _ _ _ (by decide) (by decide)
        rw [hsv]
        exact extract_sv_word_ne _ [] _ c _ hsplit hc
    · cases data with
      | none => exact absurd rfl hf
      | some entries =>
        obtain ⟨f, fs, hffs⟩ : ∃ f fs, folketsTranslations (some entries) = f :: fs := by
          cases hx : folketsTranslations (some entries) with
          | nil => exact absurd hx hf
          | cons f fs => exact ⟨f, fs, rfl⟩
        have hsv : english_to_swedish_with_examples (some entries) term t = f :: fs := by
          simp only [english_to_swedish_with_examples]
          rw [hffs]
          rfl
        obtain ⟨e, he, hTne, tail, hform⟩ := folketsTranslations_head entries f fs hffs
        obtain ⟨hfix, hbr⟩ := hdata e (by simpa using he)
        obtain ⟨c, cs, hctr⟩ : ∃ c cs, e.translation = c :: cs := by
          cases hx : e.translation with
          | nil => exact absurd hx hTne
          | cons c cs => exact ⟨c, cs, rfl⟩
        have hc : pyIsSpace c = false := strip_fix_head_not _ c cs hfix hctr
        have hnotin : ']' ∉ '[' :: e.cls := by
          intro hmem
          rcases List.mem_cons.mp hmem with hmem | hmem
          · exact absurd hmem (by decide)
          · exact hbr hmem
        have hdl : ((("] ").data)).dropLast = [']'] := by decide
        have hsplit : splitAtSub ((("] ").data)) f
            = some ('[' :: e.cls, c :: (cs ++ tail)) := by
          rw [hform, hctr]
          have hca : ('[' :: e.cls) ++ (("] ").data) ++ ((c :: cs) ++ tail)
              = ('[' :: e.cls) ++ (("] ").data) ++ (c :: (cs ++ tail)) := rfl
          rw [hca]
          refine splitAtSub_first _ _ _ (by decide) ?_
          rw [hdl]
          exact hasSub_brack ('[' :: e.cls) hnotin
        rw [hsv]
        exact extract_sv_word_ne f fs _ c (cs ++ tail) hsplit hc
  refine ⟨hne, ?_, by decide⟩
  have hEm : (extract_sv_word (english_to_swedish_with_examples data term t)).isEmpty
      = false := by
    cases hx : extract_sv_word (english_to_swedish_with_examples data term t) with
    | nil => exact absurd hx hne
    | cons a as => rfl
  simp [en2sv_headword, hEm]

/-- Claim C6 witness: Folkets returns one entry translating `hello` to
`hej`; the persisted headword is the extracted `hej`, not `hello`, and the
file is `vocab_sv.tsv`. -/
theorem en2sv_headword_translated_witness :
    extract_sv_word (english_to_swedish_with_examples
      (some [⟨("hej").data, ("interjection").data, []⟩])
      (("hello").data) (("hej").data)) ≠ [] ∧
    en2sv_headword (some [⟨("hej").data, ("interjection").data, []⟩])
        (("hello").data) (("hej").data)
      = extract_sv_word (english_to_swedish_with_examples
          (some [⟨("hej").data, ("interjection").data, []⟩])
          (("hello").data) (("hej").data)) ∧
    tsv_path_for_lang (some ('s' :: 'v' :: [])) = (("vocab_sv.tsv").data) := by
  apply en2sv_headword_translated
  · intro e he
    have he' : e = ⟨("hej").data, ("interjection").data, []⟩ := by
      simpa using he
    rw [he']
    exact ⟨by decide, by decide⟩
  · decide
  · exact Or.inl (by decide)
